import Mathlib

/-!
Verification of the transportation-problem solver in `src/src/main.rs`.

The Rust program is embedded shallowly:

* `Vec<i32>` becomes `List Int` and `Vec<Vec<i32>>` becomes `List (List Int)`;
  `v.len()` becomes `List.length`, indexed reads become `List.getD` and
  indexed writes become `List.set`.  Every read and write the program performs
  is in range (out-of-range access would panic in Rust), so the `getD`
  defaults and the out-of-range no-op of `List.set` are never exercised on
  the executions the theorems talk about; theorems whose claim would touch an
  out-of-range access (an empty matrix) carry an explicit non-emptiness
  hypothesis instead.
* `i32` arithmetic becomes `Int` arithmetic: every quantity produced by this
  program on its data stays far below `2^31`, so wrap-around never occurs.
* `f64` potentials become `Int`.  Every `f64` value the program produces is
  obtained from `i32` costs by casts and subtractions/additions only
  (`u[0] = 0.0`, then `cost - u`, `cost - v`, `cost - (u + v)`), so each such
  value is an integer, and of magnitude far below `2^53`, which `f64`
  represents and subtracts exactly: the `f64` runs of the program compute
  exactly these integers.  The only comparison against a non-integer
  constant is `best_delta < -0.0001` (main.rs line 153); for an integer `d`,
  `d < -0.0001` holds iff `d < 0`, because no integer lies in `[-0.0001, 0)`
  — theorem `lt_neg_tolerance_iff` below proves this translation exact, so
  the test is embedded as `sc.best_delta < 0`.
* `std::cmp::min` on integers is spelled out as the conditional it denotes.
* the two `while` loops that are not structurally bounded
  (`north_west_corner`'s sweep and the potential-propagation fixed point)
  are given explicit fuel; theorems below show the chosen fuel always
  reaches the loop's exit condition (`nwcGo_exit`, `potLoop_stable`), so the
  fuelled functions compute exactly what the unbounded loops compute.
-/

/-- Read entry `(i, j)` of a matrix: `allocations[i][j]`. -/
def get2D (A : List (List Int)) (i j : Nat) : Int := (A.getD i []).getD j 0

/-- Write entry `(i, j)` of a matrix: `allocations[i][j] = x`. -/
def set2D (A : List (List Int)) (i j : Nat) (x : Int) : List (List Int) :=
  A.set i ((A.getD i []).set j x)

/-- The `TransportProblem` struct (main.rs lines 4-8). -/
structure TransportProblem where
  supplies : List Int
  demands : List Int
  costs : List (List Int)

/-- The `TransportPlan` struct (main.rs lines 11-14). -/
structure TransportPlan where
  allocations : List (List Int)
  total_cost : Int

/-- `TransportProblem::new` (main.rs lines 17-27): the fixed instance. -/
def TransportProblem.new : TransportProblem where
  supplies := [200, 150, 150]
  demands := [90, 100, 70, 130, 110]
  costs := [[12, 15, 21, 14, 17],
            [14, 8, 15, 11, 21],
            [19, 16, 26, 12, 20]]

/-- `TransportProblem::is_balanced` (main.rs lines 30-34). -/
def TransportProblem.is_balanced (p : TransportProblem) : Bool :=
  decide (p.supplies.sum = p.demands.sum)

/-- `TransportProblem::calculate_total_cost` (main.rs lines 71-79): the loop
bounds are `allocations.len()` and `allocations[i].len()` as in the source. -/
def TransportProblem.calculate_total_cost (p : TransportProblem)
    (allocations : List (List Int)) : Int :=
  ∑ i in Finset.range allocations.length,
    ∑ j in Finset.range (allocations.getD i []).length,
      get2D allocations i j * get2D p.costs i j

/-- The mutable state of the `north_west_corner` loop (main.rs lines 40-46). -/
structure NWState where
  i : Nat
  j : Nat
  supply_remaining : List Int
  demand_remaining : List Int
  allocations : List (List Int)

/-- One pass of the `while` body of `north_west_corner` (main.rs lines 48-60). -/
def nwcStep (s : NWState) : NWState :=
  let allocation : Int :=
    if s.supply_remaining.getD s.i 0 ≤ s.demand_remaining.getD s.j 0
    then s.supply_remaining.getD s.i 0 else s.demand_remaining.getD s.j 0
  let sr := s.supply_remaining.set s.i (s.supply_remaining.getD s.i 0 - allocation)
  let dr := s.demand_remaining.set s.j (s.demand_remaining.getD s.j 0 - allocation)
  { i := if sr.getD s.i 0 = 0 then s.i + 1 else s.i
    j := if dr.getD s.j 0 = 0 then s.j + 1 else s.j
    supply_remaining := sr
    demand_remaining := dr
    allocations := set2D s.allocations s.i s.j allocation }

/-- The `while i < m && j < n` loop of `north_west_corner`, with fuel.
`nwcGo_exit` below shows fuel `m + n` always reaches the exit condition. -/
def nwcGo (m n : Nat) : Nat → NWState → NWState
  | 0, s => s
  | fuel + 1, s => if s.i < m ∧ s.j < n then nwcGo m n fuel (nwcStep s) else s

/-- `TransportProblem::north_west_corner` (main.rs lines 37-68). -/
def TransportProblem.north_west_corner (p : TransportProblem) : TransportPlan :=
  let m := p.supplies.length
  let n := p.demands.length
  let s := nwcGo m n (m + n)
    ⟨0, 0, p.supplies, p.demands, List.replicate m (List.replicate n 0)⟩
  { allocations := s.allocations
    total_cost := p.calculate_total_cost s.allocations }

/-- The error named by the spec for an unbalanced model. -/
inductive TransportError where
  | UnbalancedProblemError
deriving DecidableEq

/-- The spec operation `build_initial_plan`.  It packages the control flow of
`solve` (main.rs lines 262-268): the `is_balanced` check runs first and on
failure the function returns before `north_west_corner` is ever called; the
error value carries the spec's name for that exit. -/
def build_initial_plan (p : TransportProblem) : Except TransportError TransportPlan :=
  if p.is_balanced then Except.ok p.north_west_corner
  else Except.error TransportError.UnbalancedProblemError

/-- All cells `(i, j)` with `i < m`, `j < n` in row-major order: the
iteration order of every `for i in 0..m { for j in 0..n { ... } }` nest. -/
def cells (m n : Nat) : List (Nat × Nat) :=
  (List.range m).flatMap fun i => (List.range n).map fun j => (i, j)

/-- The mutable state of the potential propagation (main.rs lines 93-100). -/
structure PotState where
  u : List (Option Int)
  v : List (Option Int)
  changed : Bool

/-- The body of the cell scan inside potential propagation
(main.rs lines 102-118).  In the second branch the Rust code re-tests
`u[i].is_none()`, which necessarily holds there; it is kept verbatim. -/
def potPassCell (p : TransportProblem) (A : List (List Int))
    (st : PotState) (ij : Nat × Nat) : PotState :=
  if 0 < get2D A ij.1 ij.2 then
    match st.u.getD ij.1 none with
    | some u_val =>
      if (st.v.getD ij.2 none).isNone then
        { st with v := st.v.set ij.2 (some (get2D p.costs ij.1 ij.2 - u_val)),
                  changed := true }
      else st
    | none =>
      match st.v.getD ij.2 none with
      | some v_val =>
        if (st.u.getD ij.1 none).isNone then
          { st with u := st.u.set ij.1 (some (get2D p.costs ij.1 ij.2 - v_val)),
                    changed := true }
        else st
      | none => st
  else st

/-- One full sweep over all cells (one iteration of `while changed`). -/
def potPass (p : TransportProblem) (A : List (List Int)) (st : PotState) : PotState :=
  (cells p.supplies.length p.demands.length).foldl (potPassCell p A) st

/-- The `while changed` loop (main.rs lines 98-119), with fuel; each pass
starts by resetting `changed := false` as at line 100.  `potLoop_stable`
below shows that fuel `m + n + 1` always reaches the fixed point. -/
def potLoop (p : TransportProblem) (A : List (List Int)) : Nat → PotState → PotState
  | 0, st => st
  | fuel + 1, st =>
    let st2 := potPass p A { st with changed := false }
    if st2.changed then potLoop p A fuel st2 else st2

/-- The state before propagation: `u = vec![None; m]` with `u[0] = Some(0.0)`,
`v = vec![None; n]` (main.rs lines 93-95). -/
def initPotState (p : TransportProblem) : PotState :=
  ⟨(List.replicate p.supplies.length (none : Option Int)).set 0 (some 0),
   List.replicate p.demands.length none, true⟩

/-- Potential computation of one optimization iteration
(main.rs lines 92-131): propagation to the fixed point followed by the
defaulting of still-undetermined potentials to `0.0` (lines 121-131); the
later `unwrap()` reads (line 141) are the inner `Option.getD` here. -/
def TransportProblem.potentials (p : TransportProblem) (A : List (List Int)) :
    (Nat → Int) × (Nat → Int) :=
  let st := potLoop p A (p.supplies.length + p.demands.length + 1) (initPotState p)
  (fun i => (st.u.getD i none).getD 0, fun j => (st.v.getD j none).getD 0)

/-- The accumulator of the improving-cell scan (main.rs lines 134-136). -/
structure ScanState where
  best_i : Nat
  best_j : Nat
  best_delta : Int
  improved : Bool

/-- The body of the improving-cell scan (main.rs lines 138-150). -/
def scanCell (p : TransportProblem) (A : List (List Int)) (u v : Nat → Int)
    (st : ScanState) (ij : Nat × Nat) : ScanState :=
  if get2D A ij.1 ij.2 = 0 then
    let delta := get2D p.costs ij.1 ij.2 - (u ij.1 + v ij.2)
    if delta < st.best_delta then ⟨ij.1, ij.2, delta, true⟩ else st
  else st

/-- The full improving-cell scan; `improved` starts `false` because the loop
body resets it at line 89 before the scan runs. -/
def findEntering (p : TransportProblem) (A : List (List Int)) (u v : Nat → Int) : ScanState :=
  (cells p.supplies.length p.demands.length).foldl (scanCell p A u v) ⟨0, 0, 0, false⟩

/-- `TransportProblem::find_cycle` (main.rs lines 194-249), with
`m = allocations.len()` and `n = allocations[0].len()` as at lines 200-201.
The breadth-first search at lines 203-225 only fills the local `visited`
and `parent` tables, which are never read afterwards; it cannot influence
the returned value and is therefore not part of the embedding.  What remains
is the path construction of lines 227-248: start from the entering cell,
append each positive cell other than the entering cell in row-major order
while the list is shorter than 4, then close the path if it has at least
3 elements. -/
def find_cycle (allocations : List (List Int))
    (start_i start_j : Nat) : Option (List (Nat × Nat)) :=
  let m := allocations.length
  let n := (allocations.getD 0 []).length
  let cycle := (cells m n).foldl
    (fun c ij =>
      if 0 < get2D allocations ij.1 ij.2 ∧ (ij.1 ≠ start_i ∨ ij.2 ≠ start_j) ∧ c.length < 4
      then c ++ [ij] else c)
    [(start_i, start_j)]
  if 3 ≤ cycle.length then some (cycle ++ [(start_i, start_j)]) else none

/-- `iter().skip(1).step_by(2)` after the `skip(1)` has been applied:
the elements at positions 0, 2, 4, … of the remaining list. -/
def everyOther {α : Type} : List α → List α
  | [] => []
  | [x] => [x]
  | x :: _ :: xs => x :: everyOther xs

/-- The minimum search of main.rs lines 165-170: `min_q` starts at
`i32::MAX` and is lowered by every odd-position (donating) cell. -/
def minDonation (A : List (List Int)) (cycle : List (Nat × Nat)) : Int :=
  (everyOther (cycle.drop 1)).foldl
    (fun acc ij => if get2D A ij.1 ij.2 < acc then get2D A ij.1 ij.2 else acc) 2147483647

/-- The reallocation of main.rs lines 173-181: walk the cycle with its
indices, adding `q` at even positions and subtracting `q` at odd ones. -/
def reallocate (A : List (List Int)) (cycle : List (Nat × Nat)) (q : Int) :
    List (List Int) :=
  cycle.enum.foldl
    (fun B kij =>
      if kij.1 % 2 = 0 then set2D B kij.2.1 kij.2.2 (get2D B kij.2.1 kij.2.2 + q)
      else set2D B kij.2.1 kij.2.2 (get2D B kij.2.1 kij.2.2 - q))
    A

/-- One iteration of the `while improved && iteration < 5` loop of
`optimize_by_potentials` (main.rs lines 88-188): compute potentials, scan for
the entering cell, and reallocate along the found cycle when an improving
cell exists; returns the plan after the iteration together with the
`improved` flag the iteration computed. -/
def optimize_iteration (p : TransportProblem) (plan : TransportPlan) :
    TransportPlan × Bool :=
  let u := (p.potentials plan.allocations).1
  let v := (p.potentials plan.allocations).2
  let sc := findEntering p plan.allocations u v
  if sc.improved ∧ sc.best_delta < 0 then
    match find_cycle plan.allocations sc.best_i sc.best_j with
    | some cycle =>
      let min_q := minDonation plan.allocations cycle
      let A2 := reallocate plan.allocations cycle min_q
      ({ allocations := A2, total_cost := p.calculate_total_cost A2 }, sc.improved)
    | none => (plan, sc.improved)
  else (plan, sc.improved)

/-- The outer loop of `optimize_by_potentials`, counting down the remaining
budget (`5 - iteration`): the guard `improved && iteration < 5` re-runs the
body only while the previous body set `improved` and budget remains. -/
def optimizeLoop (p : TransportProblem) (plan : TransportPlan) : Nat → TransportPlan
  | 0 => plan
  | k + 1 =>
    let r := optimize_iteration p plan
    if r.2 then optimizeLoop p r.1 k else r.1

/-- `TransportProblem::optimize_by_potentials` (main.rs lines 82-191). -/
def TransportProblem.optimize_by_potentials (p : TransportProblem)
    (plan : TransportPlan) : TransportPlan :=
  optimizeLoop p plan 5

/-- The terminal outcomes named by the spec for the optimization loop. -/
inductive Outcome where
  | Optimal
  | Stalled
  | IterationCapReached
deriving DecidableEq

/-- `optimizeLoop` instrumented with the number of loop bodies executed and
the reason the loop stopped: `Optimal` when the body left `improved = false`
(the code prints its optimality message exactly there),
`IterationCapReached` when the budget ran out while `improved` was still
set. -/
def optimizeTrace (p : TransportProblem) (plan : TransportPlan) :
    Nat → TransportPlan × Nat × Outcome
  | 0 => (plan, 0, Outcome.IterationCapReached)
  | k + 1 =>
    let r := optimize_iteration p plan
    if r.2 then
      let t := optimizeTrace p r.1 k
      (t.1, t.2.1 + 1, t.2.2)
    else (r.1, 1, Outcome.Optimal)

/-! ### Basic access lemmas -/

lemma getD_set {α : Type} (l : List α) (i k : Nat) (x d : α) :
    (l.set i x).getD k d = if k = i ∧ i < l.length then x else l.getD k d := by
  induction l generalizing i k with
  | nil => simp
  | cons a t ih =>
    cases i with
    | zero => cases k <;> simp
    | succ i2 =>
      cases k with
      | zero => simp
      | succ k2 => simpa [List.getD, Nat.succ_lt_succ_iff] using ih i2 k2

lemma get2D_set2D (A : List (List Int)) (i j : Nat) (x : Int) (r c : Nat) :
    get2D (set2D A i j x) r c =
      if r = i ∧ c = j ∧ i < A.length ∧ j < (A.getD i []).length then x
      else get2D A r c := by
  unfold get2D set2D
  rw [getD_set]
  by_cases hr : r = i ∧ i < A.length
  · rw [if_pos hr, getD_set]
    by_cases hc : c = j ∧ j < (A.getD i []).length
    · rw [if_pos hc, if_pos ⟨hr.1, hc.1, hr.2, hc.2⟩]
    · rw [if_neg hc, if_neg (by tauto), hr.1]
  · rw [if_neg hr, if_neg (by tauto)]

lemma mem_cells {m n : Nat} {ij : Nat × Nat} : ij ∈ cells m n ↔ ij.1 < m ∧ ij.2 < n := by
  cases ij with
  | mk a b => simp [cells]

/-- Claim C5: on the fixed instance, the north-west-corner construction
produces exactly the stated allocation matrix with total cost 7360. -/
theorem c5_north_west_corner_fixed_instance :
    TransportProblem.new.north_west_corner.allocations =
      [[90, 100, 10, 0, 0], [0, 0, 60, 90, 0], [0, 0, 0, 40, 110]] ∧
    TransportProblem.new.north_west_corner.total_cost = 7360 := by
  exact ⟨by decide, by decide⟩

/-- Claim C1 (refuting evaluation): the first reallocation step of
`optimize_by_potentials` on the fixed instance does not preserve row and
column sums: row 0 sums to 200 before and 210 after; column 2 sums to 70
before and 60 after. -/
theorem c1_reallocation_breaks_sums :
    (∑ j in Finset.range 5,
        get2D TransportProblem.new.north_west_corner.allocations 0 j) = 200 ∧
    (∑ j in Finset.range 5,
        get2D (optimize_iteration TransportProblem.new
          TransportProblem.new.north_west_corner).1.allocations 0 j) = 210 ∧
    (∑ i in Finset.range 3,
        get2D TransportProblem.new.north_west_corner.allocations i 2) = 70 ∧
    (∑ i in Finset.range 3,
        get2D (optimize_iteration TransportProblem.new
          TransportProblem.new.north_west_corner).1.allocations i 2) = 60 := by
  exact ⟨by decide, by decide, by decide, by decide⟩

/-- Claim C3 (refuting evaluation): on the fixed instance the optimizer
raises the total cost: the initial plan costs 7360, the plan after the first
loop iteration costs 7520, and the plan `optimize_by_potentials` finally
returns costs 9640. -/
theorem c3_cost_increases :
    TransportProblem.new.north_west_corner.total_cost = 7360 ∧
    (optimize_iteration TransportProblem.new
        TransportProblem.new.north_west_corner).1.total_cost = 7520 ∧
    (TransportProblem.new.optimize_by_potentials
        TransportProblem.new.north_west_corner).total_cost = 9640 := by
  exact ⟨by decide, by decide, by decide⟩

/-- Modelled from the spec (§4.3 CycleFinder contract), for comparison with
the implementation: a returned cycle starts and ends at the entering cell,
consecutive cells share a row or a column, and every odd-position (donating)
cell is basic (strictly positive allocation). -/
def specCycleContract (A : List (List Int)) (si sj : Nat)
    (L : List (Nat × Nat)) : Prop :=
  L.head? = some (si, sj) ∧ L.getLast? = some (si, sj) ∧
  List.Chain' (fun a b => a.1 = b.1 ∨ a.2 = b.2) L ∧
  ∀ x ∈ L.enum, x.1 % 2 = 1 → 0 < get2D A x.2.1 x.2.2

/-- Claim C2 (refuting evaluation): on the allocation matrix
`[[0, 1], [1, 0]]` with entering cell `(0, 0)`, `find_cycle` returns the
path `[(0,0), (0,1), (1,0), (0,0)]`, which violates the CycleFinder
contract: the consecutive cells `(0,1)` and `(1,0)` share neither row nor
column, and the cell at odd position 3 is the entering cell itself with
allocation 0, not a basic cell. -/
theorem c2_find_cycle_violates_contract :
    find_cycle [[0, 1], [1, 0]] 0 0 = some [(0, 0), (0, 1), (1, 0), (0, 0)] ∧
    ¬ specCycleContract [[0, 1], [1, 0]] 0 0 [(0, 0), (0, 1), (1, 0), (0, 0)] := by
  refine ⟨by decide, ?_⟩
  intro h
  have h3 := h.2.2.1
  simp [List.chain'_cons, List.chain'_singleton] at h3

/-- Claim C7: for every model whose supplies and demands have different
totals, building the initial plan fails with `UnbalancedProblemError`
(no plan is produced). -/
theorem c7_unbalanced_rejected (p : TransportProblem)
    (h : p.supplies.sum ≠ p.demands.sum) :
    build_initial_plan p = Except.error TransportError.UnbalancedProblemError := by
  unfold build_initial_plan
  simp [TransportProblem.is_balanced, h]

/-- Witness for C7 at the spec scenario `supplies = [10]`, `demands = [5, 10]`. -/
theorem c7_witness :
    build_initial_plan ⟨[10], [5, 10], [[0, 0]]⟩ =
      Except.error TransportError.UnbalancedProblemError :=
  c7_unbalanced_rejected _ (by decide)

/-! ### C6: the cached total cost never drifts -/

lemma optimize_iteration_cost (p : TransportProblem) (plan : TransportPlan)
    (h : plan.total_cost = p.calculate_total_cost plan.allocations) :
    (optimize_iteration p plan).1.total_cost
      = p.calculate_total_cost (optimize_iteration p plan).1.allocations := by
  unfold optimize_iteration
  dsimp only
  split
  · split
    · rfl
    · exact h
  · exact h

/-- Claim C6: wherever a plan is produced or returned — after the initial
construction and after every iteration of the optimization loop — the cached
`total_cost` equals the cost recomputed from the allocation matrix. -/
theorem c6_total_cost_cached (p : TransportProblem) (plan : TransportPlan) (k : Nat)
    (h : plan.total_cost = p.calculate_total_cost plan.allocations) :
    p.north_west_corner.total_cost
        = p.calculate_total_cost p.north_west_corner.allocations ∧
    (optimizeLoop p plan k).total_cost
        = p.calculate_total_cost (optimizeLoop p plan k).allocations := by
  refine ⟨rfl, ?_⟩
  induction k generalizing plan with
  | zero => exact h
  | succ k2 ih =>
    have hr := optimize_iteration_cost p plan h
    by_cases h2 : (optimize_iteration p plan).2 = true
    · simpa [optimizeLoop, h2] using ih _ hr
    · simp [optimizeLoop, h2, hr]

/-- Witness for C6: the fixed instance, its initial plan, and the full
five-iteration budget of `optimize_by_potentials`. -/
theorem c6_witness :
    TransportProblem.new.north_west_corner.total_cost
        = TransportProblem.new.calculate_total_cost
            TransportProblem.new.north_west_corner.allocations ∧
    (optimizeLoop TransportProblem.new TransportProblem.new.north_west_corner 5).total_cost
        = TransportProblem.new.calculate_total_cost
            (optimizeLoop TransportProblem.new
              TransportProblem.new.north_west_corner 5).allocations :=
  c6_total_cost_cached TransportProblem.new TransportProblem.new.north_west_corner 5 rfl

/-! ### C10: what find_cycle actually returns -/

/-- The positive cells other than the entering cell, in row-major order,
over the dimensions `find_cycle` derives from the allocation matrix. -/
def basicsOthers (A : List (List Int)) (si sj : Nat) : List (Nat × Nat) :=
  (cells A.length (A.getD 0 []).length).filter
    fun ij => decide (0 < get2D A ij.1 ij.2 ∧ (ij.1 ≠ si ∨ ij.2 ≠ sj))

lemma find_cycle_fold (A : List (List Int)) (si sj : Nat) (l : List (Nat × Nat)) :
    ∀ acc : List (Nat × Nat),
      l.foldl (fun c ij =>
          if 0 < get2D A ij.1 ij.2 ∧ (ij.1 ≠ si ∨ ij.2 ≠ sj) ∧ c.length < 4
          then c ++ [ij] else c) acc
        = acc ++ (l.filter fun ij =>
            decide (0 < get2D A ij.1 ij.2 ∧ (ij.1 ≠ si ∨ ij.2 ≠ sj))).take
              (4 - acc.length) := by
  induction l with
  | nil => intro acc; simp
  | cons x t ih =>
    intro acc
    by_cases hx : 0 < get2D A x.1 x.2 ∧ (x.1 ≠ si ∨ x.2 ≠ sj)
    · by_cases hlen : acc.length < 4
      · rw [List.foldl_cons, if_pos ⟨hx.1, hx.2, hlen⟩, ih,
          List.filter_cons_of_pos (by simpa using hx)]
        have h4 : 4 - acc.length = (4 - (acc ++ [x]).length) + 1 := by
          simp only [List.length_append, List.length_cons, List.length_nil]
          omega
        rw [h4, List.take_succ_cons]
        simp
      · have h4 : ¬(0 < get2D A x.1 x.2 ∧ (x.1 ≠ si ∨ x.2 ≠ sj) ∧ acc.length < 4) := by
          tauto
        rw [List.foldl_cons, if_neg h4, ih,
          List.filter_cons_of_pos (by simpa using hx)]
        have h0 : 4 - acc.length = 0 := by omega
        simp [h0]
    · rw [List.foldl_cons, if_neg (by tauto), ih,
        List.filter_cons_of_neg (by simpa using hx)]

lemma find_cycle_eq (A : List (List Int)) (si sj : Nat) :
    find_cycle A si sj =
      if 2 ≤ (basicsOthers A si sj).length
      then some ((si, sj) :: (basicsOthers A si sj).take 3 ++ [(si, sj)])
      else none := by
  unfold find_cycle basicsOthers
  dsimp only
  rw [find_cycle_fold]
  generalize (cells A.length (A.getD 0 []).length).filter
      (fun ij => decide (0 < get2D A ij.1 ij.2 ∧ (ij.1 ≠ si ∨ ij.2 ≠ sj))) = F
  rw [List.singleton_append, show ((4 : Nat) - ([(si, sj)] : List (Nat × Nat)).length) = 3 from rfl]
  have hlen : ((si, sj) :: F.take 3).length = 1 + min 3 F.length := by
    simp [List.length_take]
    omega
  rcases le_or_lt 2 F.length with h2 | h2
  · rw [if_pos (by rw [hlen]; omega), if_pos h2, List.cons_append]
  · rw [if_neg (by rw [hlen]; omega), if_neg (by omega)]

/-- Claim C10: `find_cycle` returns `none` exactly when fewer than two cells
other than the entering cell are positive; any returned cycle is the
entering cell, followed by the first at-most-three positive cells in
row-major order, closed by the entering cell again, so its length is 4 or 5,
with no adjacency condition between neighbouring path cells. -/
theorem c10_find_cycle_characterization (A : List (List Int)) (si sj : Nat)
    (_hA : 0 < A.length) :
    (find_cycle A si sj = none ↔ (basicsOthers A si sj).length < 2) ∧
    ∀ L, find_cycle A si sj = some L →
      L = (si, sj) :: (basicsOthers A si sj).take 3 ++ [(si, sj)] ∧
      (L.length = 4 ∨ L.length = 5) := by
  rw [find_cycle_eq]
  constructor
  · rcases le_or_lt 2 (basicsOthers A si sj).length with h2 | h2
    · rw [if_pos h2]
      constructor
      · intro hc; exact Option.noConfusion hc
      · intro hlt; omega
    · rw [if_neg (by omega)]
      constructor
      · intro _; omega
      · intro _; rfl
  · intro L hL
    rcases le_or_lt 2 (basicsOthers A si sj).length with h2 | h2
    · rw [if_pos h2] at hL
      cases hL
      refine ⟨rfl, ?_⟩
      simp only [List.length_cons, List.length_append, List.length_take,
        List.length_singleton, List.length_nil]
      omega
    · rw [if_neg (by omega)] at hL
      exact Option.noConfusion hL

/-- Witness for C10 at the matrix `[[5, 0], [0, 7]]` with entering cell
`(0, 1)`. -/
theorem c10_witness :
    [((0 : Nat), (1 : Nat)), (0, 0), (1, 1), (0, 1)]
        = ((0 : Nat), (1 : Nat)) :: (basicsOthers [[5, 0], [0, 7]] 0 1).take 3
            ++ [(0, 1)] ∧
    (([((0 : Nat), (1 : Nat)), (0, 0), (1, 1), (0, 1)]).length = 4 ∨
     ([((0 : Nat), (1 : Nat)), (0, 0), (1, 1), (0, 1)]).length = 5) :=
  (c10_find_cycle_characterization [[5, 0], [0, 7]] 0 1 (by decide)).2 _ (by decide)

/-! ### C8: nonnegative reduced costs certify optimality and stop the loop -/

/-- The translation of the test `best_delta < -0.0001` (main.rs line 153) is
exact: the compared value is always an integer, and an integer is below
`-0.0001` exactly when it is negative. -/
theorem lt_neg_tolerance_iff (d : Int) : d < 0 ↔ (d : ℚ) < -(1 : ℚ) / 10000 := by
  constructor
  · intro h
    have h1 : d ≤ -1 := by omega
    have h2 : (d : ℚ) ≤ -1 := by exact_mod_cast h1
    have h3 : (-1 : ℚ) < -(1 : ℚ) / 10000 := by norm_num
    linarith
  · intro h
    by_contra hle
    push_neg at hle
    have h2 : (0 : ℚ) ≤ (d : ℚ) := by exact_mod_cast hle
    have h3 : -(1 : ℚ) / 10000 < 0 := by norm_num
    linarith

lemma nonneg_of_neg_tolerance_le (d : Int) (h : -(1 : ℚ) / 10000 ≤ (d : ℚ)) :
    0 ≤ d := by
  by_contra hneg
  push_neg at hneg
  exact absurd h (not_le.mpr ((lt_neg_tolerance_iff d).mp hneg))

lemma neg_tolerance_le_cast (d : Int) (h : 0 ≤ d) : -(1 : ℚ) / 10000 ≤ (d : ℚ) := by
  have h2 : (0 : ℚ) ≤ (d : ℚ) := by exact_mod_cast h
  have h3 : -(1 : ℚ) / 10000 < 0 := by norm_num
  linarith

lemma findEntering_no_improvement (p : TransportProblem) (A : List (List Int))
    (u v : Nat → Int)
    (h : ∀ ij ∈ cells p.supplies.length p.demands.length,
        get2D A ij.1 ij.2 = 0 → 0 ≤ get2D p.costs ij.1 ij.2 - (u ij.1 + v ij.2)) :
    findEntering p A u v = ⟨0, 0, 0, false⟩ := by
  unfold findEntering
  generalize hl : cells p.supplies.length p.demands.length = l
  rw [hl] at h
  clear hl
  induction l with
  | nil => rfl
  | cons x t ih =>
    rw [List.foldl_cons]
    have hx : scanCell p A u v ⟨0, 0, 0, false⟩ x = ⟨0, 0, 0, false⟩ := by
      unfold scanCell
      dsimp only
      split
      · rw [if_neg]
        have := h x (List.mem_cons_self x t) (by assumption)
        omega
      · rfl
    rw [hx]
    exact ih fun ij hij => h ij (List.mem_cons_of_mem x hij)

/-- Claim C8: in any iteration of the optimization loop, if every non-basic
cell's reduced cost `delta = cost - (u + v)` is at least the tolerance
`-0.0001`, the loop ends in that iteration without mutating the plan, and the
run is classified optimal (the code's "plan is optimal" exit). -/
theorem c8_nonnegative_deltas_terminate (p : TransportProblem)
    (plan : TransportPlan) (k : Nat) (_hm : 0 < p.supplies.length)
    (h : ∀ i < p.supplies.length, ∀ j < p.demands.length,
        get2D plan.allocations i j = 0 →
        -(1 : ℚ) / 10000 ≤
          ((get2D p.costs i j
            - ((p.potentials plan.allocations).1 i
                + (p.potentials plan.allocations).2 j) : Int) : ℚ)) :
    optimizeLoop p plan (k + 1) = plan ∧
    optimizeTrace p plan (k + 1) = (plan, 1, Outcome.Optimal) := by
  have hscan : findEntering p plan.allocations
      (p.potentials plan.allocations).1 (p.potentials plan.allocations).2
      = ⟨0, 0, 0, false⟩ := by
    apply findEntering_no_improvement
    intro ij hij hz
    have hb := mem_cells.mp hij
    exact nonneg_of_neg_tolerance_le _ (h ij.1 hb.1 ij.2 hb.2 hz)
  have hit : optimize_iteration p plan = (plan, false) := by
    unfold optimize_iteration
    dsimp only
    rw [hscan]
    simp
  constructor
  · simp [optimizeLoop, hit]
  · simp [optimizeTrace, hit]

/-- Witness for C8: a 2-by-2 model with unit costs and a diagonal plan;
every non-basic reduced cost is nonnegative, so one loop iteration returns
the plan unchanged as optimal. -/
theorem c8_witness :
    optimizeLoop ⟨[1, 1], [1, 1], [[1, 1], [1, 1]]⟩ ⟨[[1, 0], [0, 1]], 2⟩ 5
        = ⟨[[1, 0], [0, 1]], 2⟩ ∧
    optimizeTrace ⟨[1, 1], [1, 1], [[1, 1], [1, 1]]⟩ ⟨[[1, 0], [0, 1]], 2⟩ 5
        = (⟨[[1, 0], [0, 1]], 2⟩, 1, Outcome.Optimal) := by
  apply c8_nonnegative_deltas_terminate _ _ 4 (by decide)
  intro i hi j hj hz
  apply neg_tolerance_le_cast
  have hi2 : i < 2 := by simpa using hi
  have hj2 : j < 2 := by simpa using hj
  revert hz
  interval_cases i <;> interval_cases j <;> decide

/-! ### C9: the optimizer terminates within the cap; the inner loop reaches
its fixed point -/

/-- Number of still-undetermined potentials: the propagation's termination
measure. -/
def noneCount (st : PotState) : Nat :=
  st.u.countP (fun o => o.isNone) + st.v.countP (fun o => o.isNone)

lemma countP_set_some (l : List (Option Int)) (i : Nat) (x : Int)
    (hnone : l.getD i none = none) (hi : i < l.length) :
    (l.set i (some x)).countP (fun o => o.isNone) + 1
      = l.countP (fun o => o.isNone) := by
  induction l generalizing i with
  | nil => simp at hi
  | cons a t ih =>
    cases i with
    | zero =>
      have ha : a = none := by simpa [List.getD] using hnone
      subst ha
      simp [List.countP_cons]
    | succ i2 =>
      have h1 : t.getD i2 none = none := by simpa [List.getD] using hnone
      have h2 : i2 < t.length := by simpa using hi
      have h3 := ih i2 h1 h2
      show (a :: t.set i2 (some x)).countP (fun o => o.isNone) + 1
        = (a :: t).countP (fun o => o.isNone)
      simp only [List.countP_cons]
      omega

lemma potPassCell_lengths (p : TransportProblem) (A : List (List Int))
    (st : PotState) (ij : Nat × Nat) :
    (potPassCell p A st ij).u.length = st.u.length ∧
    (potPassCell p A st ij).v.length = st.v.length := by
  unfold potPassCell
  split <;> (try split) <;> (try split) <;> (try split) <;> simp [List.length_set]

lemma potPassCell_changed_mono (p : TransportProblem) (A : List (List Int))
    (st : PotState) (ij : Nat × Nat) (h : st.changed = true) :
    (potPassCell p A st ij).changed = true := by
  unfold potPassCell
  split <;> (try split) <;> (try split) <;> (try split) <;> simp [h]

lemma potPassCell_progress (p : TransportProblem) (A : List (List Int))
    (st : PotState) (ij : Nat × Nat)
    (hi : ij.1 < st.u.length) (hj : ij.2 < st.v.length) :
    potPassCell p A st ij = st ∨
      ((potPassCell p A st ij).changed = true ∧
        noneCount (potPassCell p A st ij) + 1 = noneCount st) := by
  by_cases hA : 0 < get2D A ij.1 ij.2
  · rcases hu : st.u.getD ij.1 none with _ | u_val
    · rcases hv : st.v.getD ij.2 none with _ | v_val
      · left
        unfold potPassCell
        rw [if_pos hA]
        simp only [hu, hv]
      · right
        unfold potPassCell
        rw [if_pos hA]
        simp only [hu, hv, Option.isNone_none, if_true]
        refine ⟨trivial, ?_⟩
        unfold noneCount
        dsimp only
        have := countP_set_some st.u ij.1 (get2D p.costs ij.1 ij.2 - v_val) hu hi
        omega
    · by_cases hvn : (st.v.getD ij.2 none).isNone = true
      · right
        unfold potPassCell
        rw [if_pos hA]
        simp only [hu, hvn, if_true]
        refine ⟨trivial, ?_⟩
        unfold noneCount
        dsimp only
        have hvnone : st.v.getD ij.2 none = none := Option.isNone_iff_eq_none.mp hvn
        have := countP_set_some st.v ij.2 (get2D p.costs ij.1 ij.2 - u_val) hvnone hj
        omega
      · left
        unfold potPassCell
        rw [if_pos hA]
        simp only [hu]
        rw [if_neg hvn]
  · left
    unfold potPassCell
    rw [if_neg hA]

lemma foldl_potPassCell_lengths (p : TransportProblem) (A : List (List Int))
    (l : List (Nat × Nat)) :
    ∀ st : PotState,
      (l.foldl (potPassCell p A) st).u.length = st.u.length ∧
      (l.foldl (potPassCell p A) st).v.length = st.v.length := by
  induction l with
  | nil => intro st; exact ⟨rfl, rfl⟩
  | cons x t ih =>
    intro st
    rw [List.foldl_cons]
    have h1 := potPassCell_lengths p A st x
    have h2 := ih (potPassCell p A st x)
    exact ⟨h2.1.trans h1.1, h2.2.trans h1.2⟩

lemma foldl_potPassCell_changed_mono (p : TransportProblem) (A : List (List Int))
    (l : List (Nat × Nat)) :
    ∀ st : PotState, st.changed = true →
      (l.foldl (potPassCell p A) st).changed = true := by
  induction l with
  | nil => intro st h; exact h
  | cons x t ih =>
    intro st h
    rw [List.foldl_cons]
    exact ih _ (potPassCell_changed_mono p A st x h)

lemma foldl_potPassCell_noneCount_le (p : TransportProblem) (A : List (List Int))
    (l : List (Nat × Nat)) :
    ∀ st : PotState, (∀ ij ∈ l, ij.1 < st.u.length ∧ ij.2 < st.v.length) →
      noneCount (l.foldl (potPassCell p A) st) ≤ noneCount st := by
  induction l with
  | nil => intro st _; exact le_refl _
  | cons x t ih =>
    intro st hb
    rw [List.foldl_cons]
    have hx := hb x (List.mem_cons_self x t)
    have hlen := potPassCell_lengths p A st x
    have hb2 : ∀ ij ∈ t, ij.1 < (potPassCell p A st x).u.length ∧
        ij.2 < (potPassCell p A st x).v.length := by
      intro ij hij
      have := hb ij (List.mem_cons_of_mem x hij)
      omega
    have h2 := ih (potPassCell p A st x) hb2
    rcases potPassCell_progress p A st x hx.1 hx.2 with hid | ⟨_, hlt⟩
    · rw [hid] at h2 ⊢
      exact h2
    · omega

lemma foldl_potPassCell_progress (p : TransportProblem) (A : List (List Int))
    (l : List (Nat × Nat)) :
    ∀ st : PotState, (∀ ij ∈ l, ij.1 < st.u.length ∧ ij.2 < st.v.length) →
      st.changed = false →
      (l.foldl (potPassCell p A) st = st ∨
        ((l.foldl (potPassCell p A) st).changed = true ∧
          noneCount (l.foldl (potPassCell p A) st) < noneCount st)) := by
  induction l with
  | nil => intro st _ _; left; rfl
  | cons x t ih =>
    intro st hb hc
    rw [List.foldl_cons]
    have hx := hb x (List.mem_cons_self x t)
    have hlen := potPassCell_lengths p A st x
    have hb2 : ∀ ij ∈ t, ij.1 < (potPassCell p A st x).u.length ∧
        ij.2 < (potPassCell p A st x).v.length := by
      intro ij hij
      have := hb ij (List.mem_cons_of_mem x hij)
      omega
    rcases potPassCell_progress p A st x hx.1 hx.2 with hid | ⟨hch, heq⟩
    · rw [hid]
      exact ih st (fun ij hij => hb ij (List.mem_cons_of_mem x hij)) hc
    · right
      refine ⟨foldl_potPassCell_changed_mono p A t _ hch, ?_⟩
      have h2 := foldl_potPassCell_noneCount_le p A t _ hb2
      omega

lemma potPass_lengths (p : TransportProblem) (A : List (List Int)) (st : PotState) :
    (potPass p A st).u.length = st.u.length ∧
    (potPass p A st).v.length = st.v.length :=
  foldl_potPassCell_lengths p A _ st

lemma potPass_progress (p : TransportProblem) (A : List (List Int)) (st : PotState)
    (hu : st.u.length = p.supplies.length) (hv : st.v.length = p.demands.length)
    (hc : st.changed = false) :
    potPass p A st = st ∨
      ((potPass p A st).changed = true ∧
        noneCount (potPass p A st) < noneCount st) := by
  apply foldl_potPassCell_progress p A _ st ?_ hc
  intro ij hij
  have h := mem_cells.mp hij
  constructor
  · rw [hu]; exact h.1
  · rw [hv]; exact h.2

/-- The potential-propagation loop reaches its fixed point within
`noneCount + 1` passes: any fuel at least that large computes the same
state, i.e. the fuelled embedding computes what the unbounded `while changed`
loop computes. -/
lemma potLoop_stable (p : TransportProblem) (A : List (List Int)) :
    ∀ fuel (st : PotState),
      st.u.length = p.supplies.length → st.v.length = p.demands.length →
      noneCount st + 1 ≤ fuel →
      potLoop p A fuel st = potLoop p A (noneCount st + 1) st := by
  intro fuel
  induction fuel using Nat.strong_induction_on with
  | _ fuel ih =>
    intro st hu hv hf
    obtain ⟨f, rfl⟩ : ∃ f, fuel = f + 1 := ⟨fuel - 1, by omega⟩
    rw [potLoop]
    conv_rhs => rw [potLoop]
    try dsimp only
    have hnc0 : noneCount { st with changed := false } = noneCount st := rfl
    rcases potPass_progress p A { st with changed := false } hu hv rfl
      with hid | ⟨hch, hlt⟩
    · rw [hid]
      simp
    · rw [if_pos hch, if_pos hch]
      have hlen := potPass_lengths p A { st with changed := false }
      have hu2 : (potPass p A { st with changed := false }).u.length
          = p.supplies.length := by rw [hlen.1]; exact hu
      have hv2 : (potPass p A { st with changed := false }).v.length
          = p.demands.length := by rw [hlen.2]; exact hv
      rw [ih f (by omega) _ hu2 hv2 (by omega),
        ih (noneCount st) (by omega) _ hu2 hv2 (by omega)]

lemma optimizeTrace_iterations_le (p : TransportProblem) :
    ∀ k (plan : TransportPlan), (optimizeTrace p plan k).2.1 ≤ k := by
  intro k
  induction k with
  | zero => intro plan; simp [optimizeTrace]
  | succ k2 ih =>
    intro plan
    rw [optimizeTrace]
    try dsimp only
    by_cases h : (optimize_iteration p plan).2 = true
    · simp only [h, if_true]
      have := ih (optimize_iteration p plan).1
      omega
    · simp [h]

lemma optimizeTrace_plan_eq (p : TransportProblem) :
    ∀ k (plan : TransportPlan),
      (optimizeTrace p plan k).1 = optimizeLoop p plan k := by
  intro k
  induction k with
  | zero => intro plan; rfl
  | succ k2 ih =>
    intro plan
    rw [optimizeTrace, optimizeLoop]
    try dsimp only
    by_cases h : (optimize_iteration p plan).2 = true
    · simp only [h, if_true]
      exact ih (optimize_iteration p plan).1
    · simp [h]

lemma countP_isNone_replicate (k : Nat) :
    (List.replicate k (none : Option Int)).countP (fun o => o.isNone) = k := by
  induction k with
  | zero => rfl
  | succ k2 ih => simp [List.replicate_succ, List.countP_cons, ih]

lemma noneCount_initPotState (p : TransportProblem) (hm : 0 < p.supplies.length) :
    noneCount (initPotState p) + 1 = p.supplies.length + p.demands.length := by
  unfold noneCount initPotState
  dsimp only
  have hnone : (List.replicate p.supplies.length (none : Option Int)).getD 0 none
      = none := by
    cases hk : p.supplies.length <;> rfl
  have h1 := countP_set_some (List.replicate p.supplies.length (none : Option Int))
    0 0 hnone (by simpa using hm)
  have h2 := countP_isNone_replicate p.supplies.length
  have h3 := countP_isNone_replicate p.demands.length
  omega

/-- Claim C9: the optimization loop performs at most 5 (the configured cap)
iterations and stops in one of the named terminal outcomes, and the inner
potential-propagation loop reaches its fixed point within its fuel, so it
cannot run unboundedly either. -/
theorem c9_optimize_terminates (p : TransportProblem) (plan : TransportPlan)
    (hm : 0 < p.supplies.length) :
    (optimizeTrace p plan 5).2.1 ≤ 5 ∧
    ((optimizeTrace p plan 5).2.2 = Outcome.Optimal ∨
      (optimizeTrace p plan 5).2.2 = Outcome.Stalled ∨
      (optimizeTrace p plan 5).2.2 = Outcome.IterationCapReached) ∧
    (optimizeTrace p plan 5).1 = p.optimize_by_potentials plan ∧
    ∀ A fuel, p.supplies.length + p.demands.length + 1 ≤ fuel →
      potLoop p A fuel (initPotState p)
        = potLoop p A (p.supplies.length + p.demands.length + 1) (initPotState p) := by
  refine ⟨optimizeTrace_iterations_le p 5 plan, ?_,
    optimizeTrace_plan_eq p 5 plan, ?_⟩
  · generalize (optimizeTrace p plan 5).2.2 = o
    cases o <;> simp
  · intro A fuel hf
    have hnc := noneCount_initPotState p hm
    have hlenu : (initPotState p).u.length = p.supplies.length := by
      simp [initPotState]
    have hlenv : (initPotState p).v.length = p.demands.length := by
      simp [initPotState]
    rw [potLoop_stable p A fuel (initPotState p) hlenu hlenv (by omega),
      potLoop_stable p A (p.supplies.length + p.demands.length + 1)
        (initPotState p) hlenu hlenv (by omega)]

/-- Witness for C9 at the fixed instance (and, for the inner loop, the fuel
pair 20 and 9 = 3 + 5 + 1 on a one-cell allocation matrix). -/
theorem c9_witness :
    (optimizeTrace TransportProblem.new
        TransportProblem.new.north_west_corner 5).2.1 ≤ 5 ∧
    potLoop TransportProblem.new [[1]] 20 (initPotState TransportProblem.new)
      = potLoop TransportProblem.new [[1]] 9 (initPotState TransportProblem.new) := by
  have h := c9_optimize_terminates TransportProblem.new
    TransportProblem.new.north_west_corner (by decide)
  refine ⟨h.1, ?_⟩
  have h4 := h.2.2.2 [[1]] 20 (by decide)
  exact h4

/-! ### C4: the north-west-corner plan meets the row and column sums -/

lemma sum_ite_point (n j : Nat) (hj : j < n) (f : Nat → Int) (x : Int) :
    (∑ c in Finset.range n, if c = j then x else f c)
      = (∑ c in Finset.range n, f c) - f j + x := by
  have hmem : j ∈ Finset.range n := Finset.mem_range.mpr hj
  rw [← Finset.sum_erase_add _ _ hmem, ← Finset.sum_erase_add _ f hmem]
  rw [Finset.sum_congr rfl fun c hc => if_neg (Finset.ne_of_mem_erase hc)]
  rw [if_pos rfl]
  ring

lemma sum_getD (l : List Int) :
    (∑ i in Finset.range l.length, l.getD i 0) = l.sum := by
  induction l with
  | nil => simp
  | cons a t ih =>
    rw [List.length_cons, Finset.sum_range_succ']
    simp only [List.getD_cons_succ, List.getD_cons_zero, List.sum_cons]
    rw [ih]
    ring

/-- The loop invariant of the north-west-corner sweep: lengths are fixed,
every row sum plus its remaining supply equals the supply, every column sum
plus its remaining demand equals the demand, remainders before the cursor
are exhausted, all remainders are nonnegative, the cursor stays in range,
and every cell at or past the cursor is still zero. -/
def NWInv (S D : List Int) (s : NWState) : Prop :=
  s.supply_remaining.length = S.length ∧
  s.demand_remaining.length = D.length ∧
  s.allocations.length = S.length ∧
  (∀ r < S.length, (s.allocations.getD r []).length = D.length) ∧
  s.i ≤ S.length ∧
  s.j ≤ D.length ∧
  (∀ r, (∑ c in Finset.range D.length, get2D s.allocations r c)
      + s.supply_remaining.getD r 0 = S.getD r 0) ∧
  (∀ c, (∑ r in Finset.range S.length, get2D s.allocations r c)
      + s.demand_remaining.getD c 0 = D.getD c 0) ∧
  (∀ r < s.i, s.supply_remaining.getD r 0 = 0) ∧
  (∀ c < s.j, s.demand_remaining.getD c 0 = 0) ∧
  (∀ r < S.length, 0 ≤ s.supply_remaining.getD r 0) ∧
  (∀ c < D.length, 0 ≤ s.demand_remaining.getD c 0) ∧
  (∀ r c, s.i ≤ r → s.j ≤ c → get2D s.allocations r c = 0)

/-- The quantity `min(supply_remaining[i], demand_remaining[j])` allocated by
one north-west-corner step. -/
def nwcQ (s : NWState) : Int :=
  if s.supply_remaining.getD s.i 0 ≤ s.demand_remaining.getD s.j 0
  then s.supply_remaining.getD s.i 0 else s.demand_remaining.getD s.j 0

lemma nwcStep_eq (s : NWState) :
    nwcStep s =
      { i := if (s.supply_remaining.set s.i
              (s.supply_remaining.getD s.i 0 - nwcQ s)).getD s.i 0 = 0
             then s.i + 1 else s.i
        j := if (s.demand_remaining.set s.j
              (s.demand_remaining.getD s.j 0 - nwcQ s)).getD s.j 0 = 0
             then s.j + 1 else s.j
        supply_remaining := s.supply_remaining.set s.i
              (s.supply_remaining.getD s.i 0 - nwcQ s)
        demand_remaining := s.demand_remaining.set s.j
              (s.demand_remaining.getD s.j 0 - nwcQ s)
        allocations := set2D s.allocations s.i s.j (nwcQ s) } := rfl

lemma nwcQ_le_left (s : NWState) : nwcQ s ≤ s.supply_remaining.getD s.i 0 := by
  unfold nwcQ; split_ifs <;> omega

lemma nwcQ_le_right (s : NWState) : nwcQ s ≤ s.demand_remaining.getD s.j 0 := by
  unfold nwcQ; split_ifs <;> omega

lemma nwcQ_exhausts (s : NWState) :
    s.supply_remaining.getD s.i 0 - nwcQ s = 0 ∨
    s.demand_remaining.getD s.j 0 - nwcQ s = 0 := by
  unfold nwcQ; split_ifs <;> omega

lemma nwcStep_inv (S D : List Int) (s : NWState) (h : NWInv S D s)
    (hi : s.i < S.length) (hj : s.j < D.length) :
    NWInv S D (nwcStep s) ∧
      s.i ≤ (nwcStep s).i ∧ (nwcStep s).i ≤ s.i + 1 ∧
      s.j ≤ (nwcStep s).j ∧ (nwcStep s).j ≤ s.j + 1 ∧
      s.i + s.j < (nwcStep s).i + (nwcStep s).j := by
  obtain ⟨hlu, hlv, hla, hlr, him, hjn, hrow, hcol, hprei, hprej, hnns, hnnd,
    hzero⟩ := h
  have hilen : s.i < s.supply_remaining.length := by omega
  have hjlen : s.j < s.demand_remaining.length := by omega
  have hialen : s.i < s.allocations.length := by omega
  have hjrlen : s.j < (s.allocations.getD s.i []).length := by
    rw [hlr s.i hi]; exact hj
  have hsr : ∀ r, (nwcStep s).supply_remaining.getD r 0
      = if r = s.i then s.supply_remaining.getD s.i 0 - nwcQ s
        else s.supply_remaining.getD r 0 := by
    intro r
    rw [nwcStep_eq]
    dsimp only
    rw [getD_set]
    by_cases hr : r = s.i
    · rw [if_pos ⟨hr, hilen⟩, if_pos hr]
    · rw [if_neg (by tauto), if_neg hr]
  have hdr : ∀ c, (nwcStep s).demand_remaining.getD c 0
      = if c = s.j then s.demand_remaining.getD s.j 0 - nwcQ s
        else s.demand_remaining.getD c 0 := by
    intro c
    rw [nwcStep_eq]
    dsimp only
    rw [getD_set]
    by_cases hc : c = s.j
    · rw [if_pos ⟨hc, hjlen⟩, if_pos hc]
    · rw [if_neg (by tauto), if_neg hc]
  have halloc : ∀ r c, get2D (nwcStep s).allocations r c
      = if r = s.i ∧ c = s.j then nwcQ s else get2D s.allocations r c := by
    intro r c
    rw [nwcStep_eq]
    dsimp only
    rw [get2D_set2D]
    by_cases hr : r = s.i ∧ c = s.j
    · rw [if_pos ⟨hr.1, hr.2, hialen, hjrlen⟩, if_pos hr]
    · rw [if_neg (by tauto), if_neg hr]
  have hkey : (nwcStep s).i = s.i ∨
      ((nwcStep s).i = s.i + 1 ∧ (nwcStep s).supply_remaining.getD s.i 0 = 0) := by
    rw [nwcStep_eq]
    dsimp only
    split_ifs with hcnd
    · right; exact ⟨rfl, hcnd⟩
    · left; rfl
  have hjkey : (nwcStep s).j = s.j ∨
      ((nwcStep s).j = s.j + 1 ∧ (nwcStep s).demand_remaining.getD s.j 0 = 0) := by
    rw [nwcStep_eq]
    dsimp only
    split_ifs with hcnd
    · right; exact ⟨rfl, hcnd⟩
    · left; rfl
  have hadv : s.i + s.j < (nwcStep s).i + (nwcStep s).j := by
    have hc1 : ((s.supply_remaining.set s.i
          (s.supply_remaining.getD s.i 0 - nwcQ s)).getD s.i 0 = 0) ∨
        ((s.demand_remaining.set s.j
          (s.demand_remaining.getD s.j 0 - nwcQ s)).getD s.j 0 = 0) := by
      rcases nwcQ_exhausts s with hx | hx
      · left; rw [getD_set, if_pos ⟨rfl, hilen⟩]; exact hx
      · right; rw [getD_set, if_pos ⟨rfl, hjlen⟩]; exact hx
    rw [nwcStep_eq]
    dsimp only
    rcases hc1 with hx | hx
    · rw [if_pos hx]
      split_ifs <;> omega
    · rw [if_pos hx]
      split_ifs <;> omega
  refine ⟨⟨?_, ?_, ?_, ?_, ?_, ?_, ?_, ?_, ?_, ?_, ?_, ?_, ?_⟩,
    ?_, ?_, ?_, ?_, hadv⟩
  · rw [nwcStep_eq]; dsimp only; rw [List.length_set]; exact hlu
  · rw [nwcStep_eq]; dsimp only; rw [List.length_set]; exact hlv
  · rw [nwcStep_eq]; dsimp only; unfold set2D; rw [List.length_set]; exact hla
  · intro r hr
    rw [nwcStep_eq]
    dsimp only
    unfold set2D
    rw [getD_set]
    split_ifs with hcond
    · rw [List.length_set]; exact hlr s.i hi
    · exact hlr r hr
  · rcases hkey with hie | ⟨hie, _⟩ <;> omega
  · rcases hjkey with hje | ⟨hje, _⟩ <;> omega
  · intro r
    by_cases hr : r = s.i
    · have h1 : ∀ c, get2D (nwcStep s).allocations r c
          = if c = s.j then nwcQ s else get2D s.allocations r c := by
        intro c
        rw [halloc]
        by_cases hc : c = s.j
        · rw [if_pos ⟨hr, hc⟩, if_pos hc]
        · rw [if_neg (by tauto), if_neg hc]
      rw [Finset.sum_congr rfl fun c _ => h1 c, sum_ite_point D.length s.j hj,
        hsr r, if_pos hr]
      have h0 : get2D s.allocations r s.j = 0 := hzero r s.j (by omega) le_rfl
      have h2 := hrow r
      have h3 : s.supply_remaining.getD r 0 = s.supply_remaining.getD s.i 0 := by
        rw [hr]
      omega
    · have h1 : ∀ c, get2D (nwcStep s).allocations r c
          = get2D s.allocations r c := by
        intro c
        rw [halloc, if_neg (by tauto)]
      rw [Finset.sum_congr rfl fun c _ => h1 c, hsr r, if_neg hr]
      exact hrow r
  · intro c
    by_cases hc : c = s.j
    · have h1 : ∀ r, get2D (nwcStep s).allocations r c
          = if r = s.i then nwcQ s else get2D s.allocations r c := by
        intro r
        rw [halloc]
        by_cases hr : r = s.i
        · rw [if_pos ⟨hr, hc⟩, if_pos hr]
        · rw [if_neg (by tauto), if_neg hr]
      rw [Finset.sum_congr rfl fun r _ => h1 r, sum_ite_point S.length s.i hi,
        hdr c, if_pos hc]
      have h0 : get2D s.allocations s.i c = 0 := hzero s.i c le_rfl (by omega)
      have h2 := hcol c
      have h3 : s.demand_remaining.getD c 0 = s.demand_remaining.getD s.j 0 := by
        rw [hc]
      omega
    · have h1 : ∀ r, get2D (nwcStep s).allocations r c
          = get2D s.allocations r c := by
        intro r
        rw [halloc, if_neg (by tauto)]
      rw [Finset.sum_congr rfl fun r _ => h1 r, hdr c, if_neg hc]
      exact hcol c
  · intro r hr
    rcases hkey with hie | ⟨hie, hz⟩
    · rw [hie] at hr
      rw [hsr r, if_neg (by omega)]
      exact hprei r hr
    · rw [hie] at hr
      by_cases hre : r = s.i
      · rw [hre]; exact hz
      · rw [hsr r, if_neg hre]
        exact hprei r (by omega)
  · intro c hc
    rcases hjkey with hje | ⟨hje, hz⟩
    · rw [hje] at hc
      rw [hdr c, if_neg (by omega)]
      exact hprej c hc
    · rw [hje] at hc
      by_cases hce : c = s.j
      · rw [hce]; exact hz
      · rw [hdr c, if_neg hce]
        exact hprej c (by omega)
  · intro r hr
    rw [hsr r]
    split_ifs with hre
    · have := nwcQ_le_left s
      omega
    · exact hnns r hr
  · intro c hc
    rw [hdr c]
    split_ifs with hce
    · have := nwcQ_le_right s
      omega
    · exact hnnd c hc
  · intro r c hr hc
    have hi2 : s.i ≤ (nwcStep s).i := by rcases hkey with hx | ⟨hx, _⟩ <;> omega
    have hj2 : s.j ≤ (nwcStep s).j := by rcases hjkey with hx | ⟨hx, _⟩ <;> omega
    rw [halloc r c]
    by_cases hrc : r = s.i ∧ c = s.j
    · exfalso
      obtain ⟨hr1, hc1⟩ := hrc
      omega
    · rw [if_neg hrc]
      exact hzero r c (by omega) (by omega)
  · rcases hkey with hx | ⟨hx, _⟩ <;> omega
  · rcases hkey with hx | ⟨hx, _⟩ <;> omega
  · rcases hjkey with hx | ⟨hx, _⟩ <;> omega
  · rcases hjkey with hx | ⟨hx, _⟩ <;> omega

lemma nwcGo_inv (S D : List Int) :
    ∀ fuel (s : NWState), NWInv S D s →
      NWInv S D (nwcGo S.length D.length fuel s) := by
  intro fuel
  induction fuel with
  | zero => intro s h; exact h
  | succ f ih =>
    intro s h
    rw [nwcGo]
    split_ifs with hgo
    · exact ih _ (nwcStep_inv S D s h hgo.1 hgo.2).1
    · exact h

/-- The north-west-corner loop exits within `m + n` steps: with that much
fuel the final state no longer satisfies the loop guard. -/
lemma nwcGo_exit (S D : List Int) :
    ∀ fuel (s : NWState), NWInv S D s →
      S.length - s.i + (D.length - s.j) ≤ fuel →
      ¬((nwcGo S.length D.length fuel s).i < S.length ∧
        (nwcGo S.length D.length fuel s).j < D.length) := by
  intro fuel
  induction fuel with
  | zero =>
    intro s _ hf
    rw [nwcGo]
    omega
  | succ f ih =>
    intro s h hf
    rw [nwcGo]
    split_ifs with hgo
    · obtain ⟨hinv2, h1, h2, h3, h4, h5⟩ := nwcStep_inv S D s h hgo.1 hgo.2
      exact ih (nwcStep s) hinv2 (by omega)
    · exact hgo

lemma getD_replicate {α : Type} (k r : Nat) (a d : α) :
    (List.replicate k a).getD r d = if r < k then a else d := by
  induction k generalizing r with
  | zero => simp
  | succ k2 ih =>
    cases r with
    | zero => simp [List.replicate_succ]
    | succ r2 =>
      simp only [List.replicate_succ, List.getD_cons_succ, ih,
        Nat.succ_lt_succ_iff]

lemma get2D_replicate_zero (m n r c : Nat) :
    get2D (List.replicate m (List.replicate n 0)) r c = 0 := by
  unfold get2D
  rw [getD_replicate]
  split_ifs
  · rw [getD_replicate]
    split_ifs <;> rfl
  · rfl

/-- Claim C4: for every balanced model with nonnegative supplies and
demands, the north-west-corner plan has row sums equal to the supplies and
column sums equal to the demands. -/
theorem c4_north_west_corner_sums (p : TransportProblem)
    (hS : ∀ r < p.supplies.length, 0 ≤ p.supplies.getD r 0)
    (hD : ∀ c < p.demands.length, 0 ≤ p.demands.getD c 0)
    (hbal : p.supplies.sum = p.demands.sum) :
    (∀ r < p.supplies.length,
      (∑ c in Finset.range p.demands.length,
        get2D p.north_west_corner.allocations r c) = p.supplies.getD r 0) ∧
    (∀ c < p.demands.length,
      (∑ r in Finset.range p.supplies.length,
        get2D p.north_west_corner.allocations r c) = p.demands.getD c 0) := by
  have hinv0 : NWInv p.supplies p.demands
      ⟨0, 0, p.supplies, p.demands,
        List.replicate p.supplies.length
          (List.replicate p.demands.length 0)⟩ := by
    refine ⟨rfl, rfl, by simp, ?_, Nat.zero_le _, Nat.zero_le _, ?_, ?_,
      fun r hr => absurd hr (Nat.not_lt_zero r),
      fun c hc => absurd hc (Nat.not_lt_zero c),
      fun r hr => hS r hr, fun c hc => hD c hc,
      fun r c _ _ => get2D_replicate_zero _ _ r c⟩
    · intro r hr
      dsimp only
      rw [getD_replicate, if_pos hr, List.length_replicate]
    · intro r
      dsimp only
      rw [Finset.sum_congr rfl fun c _ => get2D_replicate_zero _ _ r c]
      simp
    · intro c
      dsimp only
      rw [Finset.sum_congr rfl fun r _ => get2D_replicate_zero _ _ r c]
      simp
  have hinv := nwcGo_inv p.supplies p.demands
    (p.supplies.length + p.demands.length) _ hinv0
  have hexit := nwcGo_exit p.supplies p.demands
    (p.supplies.length + p.demands.length) _ hinv0 (by omega)
  obtain ⟨hlu, hlv, hla, hlr, him, hjn, hrow, hcol, hprei, hprej, hnns, hnnd,
    hzero⟩ := hinv
  have hNW : p.north_west_corner.allocations
      = (nwcGo p.supplies.length p.demands.length
          (p.supplies.length + p.demands.length)
          ⟨0, 0, p.supplies, p.demands,
            List.replicate p.supplies.length
              (List.replicate p.demands.length 0)⟩).allocations := rfl
  rw [hNW]
  set F := nwcGo p.supplies.length p.demands.length
    (p.supplies.length + p.demands.length)
    ⟨0, 0, p.supplies, p.demands,
      List.replicate p.supplies.length
        (List.replicate p.demands.length 0)⟩ with hFdef
  have hcase : F.i = p.supplies.length ∨ F.j = p.demands.length := by omega
  have rows_direct : F.i = p.supplies.length →
      ∀ r < p.supplies.length,
        (∑ c in Finset.range p.demands.length,
          get2D F.allocations r c) = p.supplies.getD r 0 := by
    intro hFi r hr
    have h1 := hrow r
    have h2 := hprei r (by omega)
    omega
  have cols_direct : F.j = p.demands.length →
      ∀ c < p.demands.length,
        (∑ r in Finset.range p.supplies.length,
          get2D F.allocations r c) = p.demands.getD c 0 := by
    intro hFj c hc
    have h1 := hcol c
    have h2 := hprej c (by omega)
    omega
  have cols_from_rows :
      (∀ r < p.supplies.length,
        (∑ c in Finset.range p.demands.length,
          get2D F.allocations r c) = p.supplies.getD r 0) →
      ∀ c < p.demands.length,
        (∑ r in Finset.range p.supplies.length,
          get2D F.allocations r c) = p.demands.getD c 0 := by
    intro hrows
    have hsum1 : (∑ r in Finset.range p.supplies.length,
        ∑ c in Finset.range p.demands.length, get2D F.allocations r c)
        = ∑ r in Finset.range p.supplies.length, p.supplies.getD r 0 :=
      Finset.sum_congr rfl fun r hr => hrows r (Finset.mem_range.mp hr)
    have hswap : (∑ r in Finset.range p.supplies.length,
        ∑ c in Finset.range p.demands.length, get2D F.allocations r c)
        = ∑ c in Finset.range p.demands.length,
            ∑ r in Finset.range p.supplies.length, get2D F.allocations r c :=
      Finset.sum_comm
    have hsum2 : (∑ c in Finset.range p.demands.length,
        ((∑ r in Finset.range p.supplies.length, get2D F.allocations r c)
          + F.demand_remaining.getD c 0))
        = ∑ c in Finset.range p.demands.length, p.demands.getD c 0 :=
      Finset.sum_congr rfl fun c _ => hcol c
    rw [Finset.sum_add_distrib] at hsum2
    have hSsum := sum_getD p.supplies
    have hDsum := sum_getD p.demands
    have hdr0 : (∑ c in Finset.range p.demands.length,
        F.demand_remaining.getD c 0) = 0 := by omega
    have hterm : ∀ c ∈ Finset.range p.demands.length,
        F.demand_remaining.getD c 0 = 0 :=
      (Finset.sum_eq_zero_iff_of_nonneg
        fun c hc => hnnd c (Finset.mem_range.mp hc)).mp hdr0
    intro c hc
    have h1 := hcol c
    have h2 := hterm c (Finset.mem_range.mpr hc)
    omega
  have rows_from_cols :
      (∀ c < p.demands.length,
        (∑ r in Finset.range p.supplies.length,
          get2D F.allocations r c) = p.demands.getD c 0) →
      ∀ r < p.supplies.length,
        (∑ c in Finset.range p.demands.length,
          get2D F.allocations r c) = p.supplies.getD r 0 := by
    intro hcols
    have hsum1 : (∑ c in Finset.range p.demands.length,
        ∑ r in Finset.range p.supplies.length, get2D F.allocations r c)
        = ∑ c in Finset.range p.demands.length, p.demands.getD c 0 :=
      Finset.sum_congr rfl fun c hc => hcols c (Finset.mem_range.mp hc)
    have hswap : (∑ c in Finset.range p.demands.length,
        ∑ r in Finset.range p.supplies.length, get2D F.allocations r c)
        = ∑ r in Finset.range p.supplies.length,
            ∑ c in Finset.range p.demands.length, get2D F.allocations r c :=
      Finset.sum_comm
    have hsum2 : (∑ r in Finset.range p.supplies.length,
        ((∑ c in Finset.range p.demands.length, get2D F.allocations r c)
          + F.supply_remaining.getD r 0))
        = ∑ r in Finset.range p.supplies.length, p.supplies.getD r 0 :=
      Finset.sum_congr rfl fun r _ => hrow r
    rw [Finset.sum_add_distrib] at hsum2
    have hSsum := sum_getD p.supplies
    have hDsum := sum_getD p.demands
    have hsr0 : (∑ r in Finset.range p.supplies.length,
        F.supply_remaining.getD r 0) = 0 := by omega
    have hterm : ∀ r ∈ Finset.range p.supplies.length,
        F.supply_remaining.getD r 0 = 0 :=
      (Finset.sum_eq_zero_iff_of_nonneg
        fun r hr => hnns r (Finset.mem_range.mp hr)).mp hsr0
    intro r hr
    have h1 := hrow r
    have h2 := hterm r (Finset.mem_range.mpr hr)
    omega
  rcases hcase with hic | hjc
  · exact ⟨rows_direct hic, cols_from_rows (rows_direct hic)⟩
  · exact ⟨rows_from_cols (cols_direct hjc), cols_direct hjc⟩

/-- Witness for C4 at the fixed instance: row 0 of the north-west-corner
plan sums to the first supply. -/
theorem c4_witness :
    (∑ c in Finset.range 5,
        get2D TransportProblem.new.north_west_corner.allocations 0 c)
      = TransportProblem.new.supplies.getD 0 0 :=
  (c4_north_west_corner_sums TransportProblem.new
    (by decide) (by decide) (by decide)).1 0 (by decide)
